import Mathlib

/-!
Verification of the Quantum-Visual-Secret-Sharing-Study repository.

The repository has two source files:

* `neqr_implementation.py` — `NEQR_Processor.encode_pixel_intensity` builds an
  8-qubit circuit preparing the basis state of an 8-bit intensity (X gates on
  the 1-bits of the reversed binary string) followed by a measurement of every
  qubit, and the `__main__` driver decodes the measured bitstring with
  `int(s, 2)`.
* `quantum_chen_wu.py` — `QuantumChenWu.build_sharing_circuit` builds the
  (2,3) Chen-Wu sharing circuit over five 8-qubit registers `g0 g1 s0 b0 sn`
  and a 24-bit classical register, and the `__main__` driver splits the
  24-character outcome string and reconstructs both secrets by XOR.

The gate vocabulary used by the code (X, H, CX, measure) is purely classical
reversible logic once each Hadamard outcome is fixed, so we embed circuits as
lists of gates acting on a state of qubit and classical-bit assignments, with
the realized outcome of each Hadamard supplied by an oracle `rand`.  Machine
integers are `Nat`/`Int`; fallible construction (Qiskit raising `CircuitError`
on an out-of-range qubit index, Python `int` raising on an empty string)
returns `Except`.
-/

/-- The primitive operations appearing in the circuits built by the code:
`set` is an X gate (unconditional bit flip), `randomize` is a Hadamard whose
measured outcome we model by an oracle, `xor` is a CX gate flipping `dst`
exactly when `src` is 1, and `measure q c` copies qubit `q` into classical
bit `c`. -/
inductive Gate : Type
  | set (q : Nat)
  | randomize (q : Nat)
  | xor (src dst : Nat)
  | measure (q : Nat) (c : Nat)
  deriving DecidableEq, Repr

/-- A simulation state: an assignment to the qubits and to the classical
bits, both indexed by `Nat`. -/
structure SimState : Type where
  q : Nat → Bool
  c : Nat → Bool

/-- All qubits and classical bits start at 0, as in Qiskit. -/
def initState : SimState := ⟨fun _ => false, fun _ => false⟩

/-- One step of simulation.  `rand` gives the realized measurement outcome of
the qubit put into superposition by each `randomize` gate (each `s0` qubit
receives exactly one Hadamard, so indexing the oracle by the qubit is
faithful). -/
def applyGate (rand : Nat → Bool) (st : SimState) : Gate → SimState
  | .set i => ⟨Function.update st.q i (!st.q i), st.c⟩
  | .randomize i => ⟨Function.update st.q i (rand i), st.c⟩
  | .xor s d => ⟨Function.update st.q d (xor (st.q s) (st.q d)), st.c⟩
  | .measure i k => ⟨st.q, Function.update st.c k (st.q i)⟩

/-- Run a gate list in order from a state. -/
def runGates (rand : Nat → Bool) (gs : List Gate) (st : SimState) : SimState :=
  gs.foldl (applyGate rand) st

/-- Errors surfaced by the external machinery the Python code calls into:
Qiskit raises a `CircuitError` when a gate addresses a qubit index outside the
circuit, and Python's `int(s, 2)` raises a `ValueError` on an empty string. -/
inductive PyError : Type
  | circuitIndexOutOfRange
  | intParseEmpty
  deriving DecidableEq, Repr

/-- Python `format(v, '08b')`: the binary digits of `v` (MSB first), with a
leading `-` sign for negative `v`, zero-padded after the sign to a total
width of 8 characters. -/
def pyFormat08b (v : Int) : List Char :=
  if v < 0 then
    '-' :: (List.replicate (7 - (Nat.toDigits 2 v.natAbs).length) '0'
      ++ Nat.toDigits 2 v.natAbs)
  else
    List.replicate (8 - (Nat.toDigits 2 v.toNat).length) '0'
      ++ Nat.toDigits 2 v.toNat

/-- The X-gate loop of `encode_pixel_intensity`: iterate the reversed binary
string with its index, appending an X gate for every `'1'` character; Qiskit
raises a `CircuitError` as soon as a gate addresses a qubit index ≥ 8 (the
circuit has 8 qubits). -/
def applyXGates : List (Nat × Char) → Except PyError (List Gate)
  | [] => .ok []
  | (i, b) :: rest =>
    if b = '1' then
      if i < 8 then do
        let g ← applyXGates rest
        .ok (Gate.set i :: g)
      else .error .circuitIndexOutOfRange
    else applyXGates rest

/-- `NEQR_Processor.encode_pixel_intensity` from `neqr_implementation.py`:
format the intensity as `format(v, '08b')`, apply an X gate at index `i` for
each `'1'` at position `i` of the reversed string, then measure qubit `i`
into classical bit `i` for `i = 0..7`.  The Python code performs no range
check on the intensity. -/
def encode_pixel_intensity (v : Int) : Except PyError (List Gate) := do
  let xs ← applyXGates (pyFormat08b v).reverse.enum
  .ok (xs ++ (List.range 8).map (fun i => Gate.measure i i))

/-- Modelled from the spec: `neqr_encode_pixel` lives in `neqr_basics.py`,
which is not part of the repository snapshot (only its caller
`quantum_chen_wu.py` is).  Per §4.1 of the spec, the encoding gate sequence
formats the intensity as an 8-digit natural (MSB-first) binary string and,
for register cell index `i` from 0 to 7, appends `SET(cell i)` exactly when
the string bit at position `7 - i` is `'1'`; per §4.1/§4.2 no measurement is
appended on this path, because the register is consumed by the larger sharing
circuit. -/
def neqr_encode_pixel (v : Nat) : List Gate :=
  (List.range 8).filterMap (fun i =>
    if (pyFormat08b (v : Int)).getD (7 - i) '0' = '1' then some (Gate.set i)
    else none)

/-- Qiskit `compose(circ, qubits=reg)`: relabel each qubit index of the
spliced sub-circuit by the offset of the target register. -/
def shiftGate (off : Nat) : Gate → Gate
  | .set i => .set (off + i)
  | .randomize i => .randomize (off + i)
  | .xor s d => .xor (off + s) (off + d)
  | .measure i k => .measure (off + i) k

/-- `qc.h(q_s0)`: one Hadamard on each cell of an 8-cell register at offset
`base`, in ascending cell order. -/
def hGates (base n : Nat) : List Gate :=
  (List.range n).map (fun i => Gate.randomize (base + i))

/-- A CX chain as in STEP 3 of `build_sharing_circuit`: for each cell `i`,
`cx (a+i) (d+i)` then `cx (b+i) (d+i)`. -/
def cxGates (a b d n : Nat) : List Gate :=
  (List.range n).flatMap (fun i => [Gate.xor (a + i) (d + i), Gate.xor (b + i) (d + i)])

/-- `qc.measure(reg, c_out[cb:cb+n])`: measure cell `i` of the register at
qubit offset `qb` into classical bit `cb + i`, in ascending cell order. -/
def measGates (qb cb n : Nat) : List Gate :=
  (List.range n).map (fun i => Gate.measure (qb + i) (cb + i))

/-- `QuantumChenWu.build_sharing_circuit(g0_val, g1_val)`: registers are laid
out in declaration order, `g0` at qubits 0–7, `g1` at 8–15, `s0` at 16–23,
`b0` at 24–31, `sn` at 32–39, with one 24-bit classical register.  The gate
list is: the NEQR encoding of `g0_val` composed onto `g0`, the encoding of
`g1_val` composed onto `g1`, Hadamards on `s0`, the CX chain
`B0 = G1 XOR S0`, the CX chain `Sn = G0 XOR B0`, then measurement of `s0`
into classical bits 0–7, `b0` into 8–15 and `sn` into 16–23. -/
def build_sharing_circuit (g0_val g1_val : Nat) : List Gate :=
  (neqr_encode_pixel g0_val).map (shiftGate 0)
  ++ (neqr_encode_pixel g1_val).map (shiftGate 8)
  ++ hGates 16 8
  ++ cxGates 8 16 24 8
  ++ cxGates 0 24 32 8
  ++ measGates 16 0 8
  ++ measGates 24 8 8
  ++ measGates 32 16 8

/-- The quantum registers declared by `build_sharing_circuit`, in declaration
order, with their widths. -/
def sharingQuantumRegisters : List (String × Nat) :=
  [("g0", 8), ("g1", 8), ("s0", 8), ("b0", 8), ("sn", 8)]

/-- The classical registers declared by `build_sharing_circuit`. -/
def sharingClassicalRegisters : List (String × Nat) :=
  [("measure", 24)]

/-- Python `int(s, 2)` on a string of binary digits: raises on the empty
string, otherwise parses MSB-first. -/
def pyIntBase2 (s : List Char) : Except PyError Nat :=
  if s = [] then .error .intParseEmpty
  else .ok (s.foldl (fun acc ch => 2 * acc + (if ch = '1' then 1 else 0)) 0)

/-- The Qiskit counts key for a classical register of width `n`: classical
bit `n-1` is printed first, bit 0 last. -/
def countsKey (c : Nat → Bool) (n : Nat) : List Char :=
  (List.range n).map (fun k => if c (n - 1 - k) then '1' else '0')

/-- The `__main__` decoding step of `neqr_implementation.py`:
`int(measured_state, 2)` on the 8-character counts key. -/
def neqr_decode (s : List Char) : Except PyError Nat := pyIntBase2 s

/-- The `__main__` outcome-splitting step of `quantum_chen_wu.py`: slice the
raw counts key into `raw_bits[0:8]` (sn), `raw_bits[8:16]` (b0) and
`raw_bits[16:24]` (s0), and parse each slice with `int(_, 2)`.  Python slices
never fail: a wrong-length string is silently sliced, and `int` only raises
when a slice is empty.  Returns `(s0, b0, sn)`. -/
def execute_and_split (raw_bits : List Char) : Except PyError (Nat × Nat × Nat) := do
  let sn_val ← pyIntBase2 (raw_bits.take 8)
  let b0_val ← pyIntBase2 ((raw_bits.drop 8).take 8)
  let s0_val ← pyIntBase2 ((raw_bits.drop 16).take 8)
  .ok (s0_val, b0_val, sn_val)

/-- The `__main__` reconstruction of `quantum_chen_wu.py`:
`rec_g1 = b0 ^ s0` and `rec_g0 = sn ^ b0`; returns `(g0, g1)`. -/
def reconstruct (b0_val s0_val sn_val : Nat) : Nat × Nat :=
  (sn_val ^^^ b0_val, b0_val ^^^ s0_val)

/-- The value of `n` bits read LSB-first from `f`. -/
def bitsVal (f : Nat → Bool) : Nat → Nat
  | 0 => 0
  | n + 1 => Nat.bit (f 0) (bitsVal (fun i => f (i + 1)) n)

/-- A register-cell-indexed list of X gates at offset `off`: cell `i` is
flipped exactly when bit `i` of `v` is set.  This is the normal form we prove
the two encoders equal to. -/
def encGates (off v n : Nat) : List Gate :=
  (List.range n).filterMap (fun i =>
    if v.testBit i then some (Gate.set (off + i)) else none)

/-- Built from the words of spec §4.1, for comparison with
`encode_pixel_intensity`: format the intensity as an 8-digit natural
(MSB-first) binary string; for cell index `i` from 0 to 7 append `SET(cell i)`
exactly when the string bit at position `7 - i` is `'1'`; then append a
`MEASURE` for every cell in ascending index order to a fresh classical output
of equal width. -/
def specEncode (v : Nat) : List Gate :=
  (List.range 8).filterMap (fun i =>
    if (pyFormat08b (v : Int)).getD (7 - i) '0' = '1' then some (Gate.set i)
    else none)
  ++ (List.range 8).map (fun i => Gate.measure i i)

/-- Built from the words of spec §4.2, for comparison with
`build_sharing_circuit`: splice the §4.1 encoding sub-sequence for `g0` into
register `G0` (cells 0–7) and the one for `g1` into `G1` (cells 8–15); one
`RANDOMIZE` per cell of `S0` (cells 16–23); for each cell index `i` in 0..7
the pair `XOR(G1[i], B0[i])` then `XOR(S0[i], B0[i])`; for each `i` the pair
`XOR(G0[i], Sn[i])` then `XOR(B0[i], Sn[i])`; finally `MEASURE` for every
cell of `S0`, `B0`, `Sn` in that register order into one 24-bit classical
output laid out as bits 0–7 = S0, 8–15 = B0, 16–23 = Sn. -/
def specSharingSequence (g0_val g1_val : Nat) : List Gate :=
  (List.range 8).filterMap (fun i =>
    if (pyFormat08b (g0_val : Int)).getD (7 - i) '0' = '1' then some (Gate.set (0 + i))
    else none)
  ++ (List.range 8).filterMap (fun i =>
    if (pyFormat08b (g1_val : Int)).getD (7 - i) '0' = '1' then some (Gate.set (8 + i))
    else none)
  ++ (List.range 8).map (fun i => Gate.randomize (16 + i))
  ++ (List.range 8).flatMap (fun i =>
    [Gate.xor (8 + i) (24 + i), Gate.xor (16 + i) (24 + i)])
  ++ (List.range 8).flatMap (fun i =>
    [Gate.xor (0 + i) (32 + i), Gate.xor (24 + i) (32 + i)])
  ++ (List.range 8).map (fun i => Gate.measure (16 + i) (0 + i))
  ++ (List.range 8).map (fun i => Gate.measure (24 + i) (8 + i))
  ++ (List.range 8).map (fun i => Gate.measure (32 + i) (16 + i))

deriving instance DecidableEq for Except

/-- The observer used to audit the XOR discipline: does this gate XOR into
destination cell `dst`? -/
def isXorTo (dst : Nat) : Gate → Bool
  | Gate.xor _ d => d == dst
  | _ => false

/-- A gate is well formed for a circuit with `nq` qubits and `nc` classical
bits when every index it touches is in range. -/
def gateWellFormed (nq nc : Nat) : Gate → Bool
  | Gate.set q => q < nq
  | Gate.randomize q => q < nq
  | Gate.xor s d => decide (s < nq) && decide (d < nq)
  | Gate.measure q k => decide (q < nq) && decide (k < nc)

theorem runGates_append (rand : Nat → Bool) (a b : List Gate) (st : SimState) :
    runGates rand (a ++ b) st = runGates rand b (runGates rand a st) := by
  simp [runGates, List.foldl_append]

theorem runGates_singleton (rand : Nat → Bool) (g : Gate) (st : SimState) :
    runGates rand [g] st = applyGate rand st g := rfl

theorem runGates_hGates_q (rand : Nat → Bool) (base n : Nat) (st : SimState) (j : Nat) :
    (runGates rand (hGates base n) st).q j =
      if base ≤ j ∧ j < base + n then rand j else st.q j := by
  induction n generalizing st with
  | zero =>
    rw [show hGates base 0 = [] from rfl, show runGates rand [] st = st from rfl,
      if_neg (by omega)]
  | succ n ih =>
    have h1 : hGates base (n + 1) = hGates base n ++ [Gate.randomize (base + n)] := by
      simp [hGates, List.range_succ]
    rw [h1, runGates_append, runGates_singleton]
    rcases eq_or_ne j (base + n) with hj | hj
    · subst hj
      show Function.update (runGates rand (hGates base n) st).q (base + n) (rand (base + n)) (base + n) = _
      rw [Function.update_same, if_pos ⟨Nat.le_add_right base n, by omega⟩]
    · show Function.update (runGates rand (hGates base n) st).q (base + n) (rand (base + n)) j = _
      rw [Function.update_noteq hj, ih st]
      have hiff : (base ≤ j ∧ j < base + n) ↔ (base ≤ j ∧ j < base + (n + 1)) := by omega
      by_cases hc : base ≤ j ∧ j < base + n
      · rw [if_pos hc, if_pos (hiff.mp hc)]
      · rw [if_neg hc, if_neg (fun h => hc (hiff.mpr h))]

theorem runGates_hGates_c (rand : Nat → Bool) (base n : Nat) (st : SimState) :
    (runGates rand (hGates base n) st).c = st.c := by
  induction n generalizing st with
  | zero => rfl
  | succ n ih =>
    have h1 : hGates base (n + 1) = hGates base n ++ [Gate.randomize (base + n)] := by
      simp [hGates, List.range_succ]
    rw [h1, runGates_append, runGates_singleton]
    show (runGates rand (hGates base n) st).c = st.c
    exact ih st

theorem encGates_succ (off v n : Nat) :
    encGates off v (n + 1) = encGates off v n
      ++ (if v.testBit n then [Gate.set (off + n)] else []) := by
  rw [encGates, encGates, List.range_succ, List.filterMap_append]
  by_cases hb : v.testBit n <;> simp [hb]

theorem runGates_encGates_q (rand : Nat → Bool) (off v n : Nat) (st : SimState) (j : Nat) :
    (runGates rand (encGates off v n) st).q j =
      if off ≤ j ∧ j < off + n ∧ v.testBit (j - off) then !(st.q j) else st.q j := by
  induction n generalizing st with
  | zero =>
    rw [show encGates off v 0 = [] from rfl, show runGates rand [] st = st from rfl,
      if_neg (by rintro ⟨h1, h2, h3⟩; omega)]
  | succ n ih =>
    rw [encGates_succ, runGates_append]
    by_cases hb : v.testBit n
    · rw [if_pos hb, runGates_singleton]
      rcases eq_or_ne j (off + n) with hj | hj
      · subst hj
        show Function.update (runGates rand (encGates off v n) st).q (off + n)
          (!(runGates rand (encGates off v n) st).q (off + n)) (off + n) = _
        rw [Function.update_same, ih st,
          if_neg (by rintro ⟨h1, h2, h3⟩; omega),
          if_pos ⟨Nat.le_add_right off n, by omega, by rw [Nat.add_sub_cancel_left]; exact hb⟩]
      · show Function.update (runGates rand (encGates off v n) st).q (off + n)
          (!(runGates rand (encGates off v n) st).q (off + n)) j = _
        rw [Function.update_noteq hj, ih st]
        have hiff : (off ≤ j ∧ j < off + n ∧ v.testBit (j - off)) ↔
            (off ≤ j ∧ j < off + (n + 1) ∧ v.testBit (j - off)) := by
          constructor
          · rintro ⟨a, b, c⟩; exact ⟨a, by omega, c⟩
          · rintro ⟨a, b, c⟩; exact ⟨a, by omega, c⟩
        by_cases hc : off ≤ j ∧ j < off + n ∧ v.testBit (j - off)
        · rw [if_pos hc, if_pos (hiff.mp hc)]
        · rw [if_neg hc, if_neg (fun h => hc (hiff.mpr h))]
    · rw [if_neg hb]
      show (runGates rand (encGates off v n) st).q j = _
      rw [ih st]
      have hiff : (off ≤ j ∧ j < off + n ∧ v.testBit (j - off)) ↔
          (off ≤ j ∧ j < off + (n + 1) ∧ v.testBit (j - off)) := by
        constructor
        · rintro ⟨a, b, c⟩; exact ⟨a, by omega, c⟩
        · rintro ⟨a, b, c⟩
          refine ⟨a, ?_, c⟩
          rcases eq_or_ne j (off + n) with hj | hj
          · exfalso
            apply hb
            have hsub : j - off = n := by omega
            rwa [hsub] at c
          · omega
      by_cases hc : off ≤ j ∧ j < off + n ∧ v.testBit (j - off)
      · rw [if_pos hc, if_pos (hiff.mp hc)]
      · rw [if_neg hc, if_neg (fun h => hc (hiff.mpr h))]

theorem runGates_encGates_c (rand : Nat → Bool) (off v n : Nat) (st : SimState) :
    (runGates rand (encGates off v n) st).c = st.c := by
  induction n generalizing st with
  | zero => rfl
  | succ n ih =>
    rw [encGates_succ, runGates_append]
    by_cases hb : v.testBit n
    · rw [if_pos hb, runGates_singleton]
      show (runGates rand (encGates off v n) st).c = st.c
      exact ih st
    · rw [if_neg hb]
      exact ih st

theorem cxGates_succ (a b d n : Nat) :
    cxGates a b d (n + 1) = cxGates a b d n
      ++ [Gate.xor (a + n) (d + n), Gate.xor (b + n) (d + n)] := by
  rw [cxGates, cxGates, List.range_succ, List.flatMap_append]
  simp

theorem runGates_cxGates_q (rand : Nat → Bool) (a b d n : Nat)
    (ha : a + n ≤ d) (hb : b + n ≤ d) (st : SimState) (j : Nat) :
    (runGates rand (cxGates a b d n) st).q j =
      if d ≤ j ∧ j < d + n then
        xor (st.q (b + (j - d))) (xor (st.q (a + (j - d))) (st.q j))
      else st.q j := by
  induction n generalizing st j with
  | zero =>
    rw [show cxGates a b d 0 = [] from rfl, show runGates rand [] st = st from rfl,
      if_neg (by omega)]
  | succ n ih =>
    have ha' : a + n ≤ d := by omega
    have hb' : b + n ≤ d := by omega
    have ha'' : a + n < d := by omega
    have hb'' : b + n < d := by omega
    rw [cxGates_succ, runGates_append]
    have hpair : ∀ st' : SimState, ∀ j' : Nat,
        (runGates rand [Gate.xor (a + n) (d + n), Gate.xor (b + n) (d + n)] st').q j' =
          if j' = d + n then
            xor (st'.q (b + n)) (xor (st'.q (a + n)) (st'.q (d + n)))
          else st'.q j' := by
      intro st' j'
      show (applyGate rand (applyGate rand st' (Gate.xor (a + n) (d + n)))
        (Gate.xor (b + n) (d + n))).q j' = _
      simp only [applyGate]
      rcases eq_or_ne j' (d + n) with hj | hj
      · subst hj
        rw [if_pos rfl, Function.update_same,
          Function.update_noteq (show b + n ≠ d + n by omega),
          Function.update_same]
      · rw [if_neg hj, Function.update_noteq hj, Function.update_noteq hj]
    rw [hpair]
    rcases eq_or_ne j (d + n) with hj | hj
    · subst hj
      rw [if_pos rfl, ih ha' hb' st (b + n), ih ha' hb' st (a + n), ih ha' hb' st (d + n),
        if_neg (by omega), if_neg (by omega), if_neg (by omega),
        if_pos ⟨Nat.le_add_right d n, by omega⟩]
      rw [Nat.add_sub_cancel_left]
    · rw [if_neg hj, ih ha' hb' st j]
      have hiff : (d ≤ j ∧ j < d + n) ↔ (d ≤ j ∧ j < d + (n + 1)) := by omega
      by_cases hc : d ≤ j ∧ j < d + n
      · rw [if_pos hc, if_pos (hiff.mp hc)]
      · rw [if_neg hc, if_neg (fun h => hc (hiff.mpr h))]

theorem runGates_cxGates_c (rand : Nat → Bool) (a b d n : Nat) (st : SimState) :
    (runGates rand (cxGates a b d n) st).c = st.c := by
  induction n generalizing st with
  | zero => rfl
  | succ n ih =>
    rw [cxGates_succ, runGates_append]
    show (runGates rand (cxGates a b d n) st).c = st.c
    exact ih st

theorem measGates_succ (qb cb n : Nat) :
    measGates qb cb (n + 1) = measGates qb cb n ++ [Gate.measure (qb + n) (cb + n)] := by
  simp [measGates, List.range_succ]

theorem runGates_measGates_q (rand : Nat → Bool) (qb cb n : Nat) (st : SimState) :
    (runGates rand (measGates qb cb n) st).q = st.q := by
  induction n generalizing st with
  | zero => rfl
  | succ n ih =>
    rw [measGates_succ, runGates_append, runGates_singleton]
    show (runGates rand (measGates qb cb n) st).q = st.q
    exact ih st

theorem runGates_measGates_c (rand : Nat → Bool) (qb cb n : Nat) (st : SimState) (k : Nat) :
    (runGates rand (measGates qb cb n) st).c k =
      if cb ≤ k ∧ k < cb + n then st.q (qb + (k - cb)) else st.c k := by
  induction n generalizing st with
  | zero =>
    rw [show measGates qb cb 0 = [] from rfl, show runGates rand [] st = st from rfl,
      if_neg (by omega)]
  | succ n ih =>
    rw [measGates_succ, runGates_append, runGates_singleton]
    rcases eq_or_ne k (cb + n) with hk | hk
    · subst hk
      show Function.update (runGates rand (measGates qb cb n) st).c (cb + n)
        ((runGates rand (measGates qb cb n) st).q (qb + n)) (cb + n) = _
      rw [Function.update_same, if_pos ⟨Nat.le_add_right cb n, by omega⟩,
        Nat.add_sub_cancel_left]
      rw [show (runGates rand (measGates qb cb n) st).q = st.q from
        runGates_measGates_q rand qb cb n st]
    · show Function.update (runGates rand (measGates qb cb n) st).c (cb + n)
        ((runGates rand (measGates qb cb n) st).q (qb + n)) k = _
      rw [Function.update_noteq hk, ih st]
      have hiff : (cb ≤ k ∧ k < cb + n) ↔ (cb ≤ k ∧ k < cb + (n + 1)) := by omega
      by_cases hc : cb ≤ k ∧ k < cb + n
      · rw [if_pos hc, if_pos (hiff.mp hc)]
      · rw [if_neg hc, if_neg (fun h => hc (hiff.mpr h))]

theorem testBit_bitsVal (f : Nat → Bool) (n i : Nat) :
    (bitsVal f n).testBit i = if i < n then f i else false := by
  induction n generalizing f i with
  | zero => rw [if_neg (by omega)]; exact Nat.zero_testBit i
  | succ n ih =>
    cases i with
    | zero =>
      rw [bitsVal, Nat.testBit_bit_zero, if_pos (Nat.succ_pos n)]
    | succ i =>
      rw [bitsVal, Nat.testBit_bit_succ, ih]
      have hiff : (i < n) ↔ (i + 1 < n + 1) := by omega
      by_cases hc : i < n
      · rw [if_pos hc, if_pos (hiff.mp hc)]
      · rw [if_neg hc, if_neg (fun h => hc (hiff.mpr h))]

theorem bitsVal_lt (f : Nat → Bool) (n : Nat) : bitsVal f n < 2 ^ n := by
  induction n generalizing f with
  | zero => simp [bitsVal]
  | succ n ih =>
    rw [bitsVal, Nat.bit_val, pow_succ]
    have := ih (fun i => f (i + 1))
    rcases f 0 with _ | _ <;> simp [Bool.toNat] <;> omega

theorem bitsVal_congr (f g : Nat → Bool) (n : Nat) (h : ∀ i, i < n → f i = g i) :
    bitsVal f n = bitsVal g n := by
  induction n generalizing f g with
  | zero => rfl
  | succ n ih =>
    rw [bitsVal, bitsVal, h 0 (Nat.succ_pos n),
      ih (fun i => f (i + 1)) (fun i => g (i + 1)) (fun i hi => h (i + 1) (by omega))]

set_option maxRecDepth 4000 in
theorem bitsVal_testBit : ∀ v : Fin 256, bitsVal (fun i => (v : Nat).testBit i) 8 = (v : Nat) := by
  decide

theorem foldl_parse_bits (f : Nat → Bool) (n : Nat) :
    ((List.range n).map (fun k => if f (n - 1 - k) then '1' else '0')).foldl
      (fun acc ch => 2 * acc + (if ch = '1' then 1 else 0)) 0 = bitsVal f n := by
  induction n generalizing f with
  | zero => rfl
  | succ n ih =>
    rw [List.range_succ, List.map_append, List.foldl_append]
    have hmap : (List.range n).map (fun k => if f (n + 1 - 1 - k) then '1' else '0')
        = (List.range n).map (fun k => if (fun i => f (i + 1)) (n - 1 - k) then '1' else '0') := by
      apply List.map_congr_left
      intro k hk
      rw [List.mem_range] at hk
      have : n + 1 - 1 - k = n - 1 - k + 1 := by omega
      rw [this]
    rw [hmap, ih (fun i => f (i + 1))]
    have hlast : n + 1 - 1 - n = 0 := by omega
    rw [bitsVal, Nat.bit_val]
    simp only [List.map_cons, List.map_nil, List.foldl_cons, List.foldl_nil, hlast]
    rcases f 0 with _ | _ <;> simp [Bool.toNat]

theorem pyIntBase2_key (f : Nat → Bool) (n : Nat) (hn : 0 < n) :
    pyIntBase2 (countsKey f n) = .ok (bitsVal f n) := by
  rw [pyIntBase2, if_neg, countsKey, foldl_parse_bits]
  intro hemp
  have : (countsKey f n).length = n := by simp [countsKey]
  rw [hemp] at this
  simp at this
  omega

set_option maxRecDepth 8000 in
theorem neqr_encode_pixel_eq : ∀ v : Fin 256,
    neqr_encode_pixel (v : Nat) = encGates 0 (v : Nat) 8 := by
  decide

theorem map_shift_encGates (off v n : Nat) :
    (encGates 0 v n).map (shiftGate off) = encGates off v n := by
  rw [encGates, encGates, List.map_filterMap]
  apply List.filterMap_congr
  intro i _
  by_cases hb : v.testBit i
  · rw [if_pos hb, if_pos hb]
    show some (shiftGate off (Gate.set (0 + i))) = _
    rw [Nat.zero_add]
    rfl
  · rw [if_neg hb, if_neg hb]
    rfl

set_option maxRecDepth 8000 in
theorem encode_pixel_intensity_eq : ∀ v : Fin 256,
    encode_pixel_intensity ((v : Nat) : Int)
      = .ok (encGates 0 (v : Nat) 8 ++ measGates 0 0 8) := by
  decide

theorem runGates_encGates_q_in (rand : Nat → Bool) (off v n : Nat) (st : SimState)
    (j : Nat) (h1 : off ≤ j) (h2 : j < off + n) (h3 : st.q j = false) :
    (runGates rand (encGates off v n) st).q j = v.testBit (j - off) := by
  rw [runGates_encGates_q]
  by_cases hb : v.testBit (j - off)
  · rw [if_pos ⟨h1, h2, hb⟩, h3, hb]
    rfl
  · rw [if_neg (by rintro ⟨-, -, hc⟩; exact hb hc), h3]
    rw [Bool.not_eq_true] at hb
    exact hb.symm

theorem runGates_encGates_q_out (rand : Nat → Bool) (off v n : Nat) (st : SimState)
    (j : Nat) (h : j < off ∨ off + n ≤ j) :
    (runGates rand (encGates off v n) st).q j = st.q j := by
  rw [runGates_encGates_q, if_neg (by rintro ⟨a, b, -⟩; omega)]

theorem runGates_hGates_q_in (rand : Nat → Bool) (base n : Nat) (st : SimState)
    (j : Nat) (h1 : base ≤ j) (h2 : j < base + n) :
    (runGates rand (hGates base n) st).q j = rand j := by
  rw [runGates_hGates_q, if_pos ⟨h1, h2⟩]

theorem runGates_hGates_q_out (rand : Nat → Bool) (base n : Nat) (st : SimState)
    (j : Nat) (h : j < base ∨ base + n ≤ j) :
    (runGates rand (hGates base n) st).q j = st.q j := by
  rw [runGates_hGates_q, if_neg (by omega)]

theorem runGates_cxGates_q_in (rand : Nat → Bool) (a b d n : Nat)
    (ha : a + n ≤ d) (hb : b + n ≤ d) (st : SimState) (j : Nat)
    (h1 : d ≤ j) (h2 : j < d + n) :
    (runGates rand (cxGates a b d n) st).q j =
      xor (st.q (b + (j - d))) (xor (st.q (a + (j - d))) (st.q j)) := by
  rw [runGates_cxGates_q rand a b d n ha hb, if_pos ⟨h1, h2⟩]

theorem runGates_cxGates_q_out (rand : Nat → Bool) (a b d n : Nat)
    (ha : a + n ≤ d) (hb : b + n ≤ d) (st : SimState) (j : Nat)
    (h : j < d ∨ d + n ≤ j) :
    (runGates rand (cxGates a b d n) st).q j = st.q j := by
  rw [runGates_cxGates_q rand a b d n ha hb, if_neg (by omega)]

theorem runGates_measGates_c_in (rand : Nat → Bool) (qb cb n : Nat) (st : SimState)
    (k : Nat) (h1 : cb ≤ k) (h2 : k < cb + n) :
    (runGates rand (measGates qb cb n) st).c k = st.q (qb + (k - cb)) := by
  rw [runGates_measGates_c, if_pos ⟨h1, h2⟩]

theorem runGates_measGates_c_out (rand : Nat → Bool) (qb cb n : Nat) (st : SimState)
    (k : Nat) (h : k < cb ∨ cb + n ≤ k) :
    (runGates rand (measGates qb cb n) st).c k = st.c k := by
  rw [runGates_measGates_c, if_neg (by omega)]

theorem countsKey_append (c : Nat → Bool) (m n : Nat) :
    countsKey c (m + n) = countsKey (fun i => c (n + i)) m ++ countsKey c n := by
  rw [countsKey, countsKey, countsKey, List.range_add, List.map_append, List.map_map]
  congr 1
  · apply List.map_congr_left
    intro k hk
    rw [List.mem_range] at hk
    have h1 : m + n - 1 - k = n + (m - 1 - k) := by omega
    rw [h1]
  · apply List.map_congr_left
    intro j hj
    rw [List.mem_range] at hj
    show (if c (m + n - 1 - (m + j)) then '1' else '0') = _
    have h1 : m + n - 1 - (m + j) = n - 1 - j := by omega
    rw [h1]

theorem countsKey_length (c : Nat → Bool) (n : Nat) : (countsKey c n).length = n := by
  simp [countsKey]

theorem countsKey24_take8 (c : Nat → Bool) :
    (countsKey c 24).take 8 = countsKey (fun i => c (16 + i)) 8 := by
  have h := countsKey_append c 8 16
  rw [show (8 : Nat) + 16 = 24 from rfl] at h
  rw [h]
  exact List.take_left' (countsKey_length _ 8)

theorem countsKey24_drop8 (c : Nat → Bool) :
    (countsKey c 24).drop 8 = countsKey c 16 := by
  have h := countsKey_append c 8 16
  rw [show (8 : Nat) + 16 = 24 from rfl] at h
  rw [h]
  exact List.drop_left' (countsKey_length _ 8)

theorem countsKey16_take8 (c : Nat → Bool) :
    (countsKey c 16).take 8 = countsKey (fun i => c (8 + i)) 8 := by
  have h := countsKey_append c 8 8
  rw [show (8 : Nat) + 8 = 16 from rfl] at h
  rw [h]
  exact List.take_left' (countsKey_length _ 8)

theorem countsKey16_drop8 (c : Nat → Bool) :
    (countsKey c 16).drop 8 = countsKey c 8 := by
  have h := countsKey_append c 8 8
  rw [show (8 : Nat) + 8 = 16 from rfl] at h
  rw [h]
  exact List.drop_left' (countsKey_length _ 8)

theorem execute_and_split_countsKey (c : Nat → Bool) :
    execute_and_split (countsKey c 24) =
      .ok (bitsVal c 8, bitsVal (fun i => c (8 + i)) 8, bitsVal (fun i => c (16 + i)) 8) := by
  have hd16 : (countsKey c 24).drop 16 = countsKey c 8 := by
    rw [show (16 : Nat) = 8 + 8 from rfl, ← List.drop_drop, countsKey24_drop8,
      countsKey16_drop8]
  have ht3 : ((countsKey c 24).drop 16).take 8 = countsKey c 8 := by
    rw [hd16]
    exact List.take_of_length_le (by rw [countsKey_length])
  rw [execute_and_split, countsKey24_take8, countsKey24_drop8, countsKey16_take8, ht3]
  rw [pyIntBase2_key _ _ (by omega), pyIntBase2_key _ _ (by omega),
    pyIntBase2_key _ _ (by omega)]
  rfl

theorem neqr_encode_pixel_eq' (v : Nat) (hv : v < 256) :
    neqr_encode_pixel v = encGates 0 v 8 :=
  neqr_encode_pixel_eq ⟨v, hv⟩

theorem encode_pixel_intensity_eq' (v : Nat) (hv : v < 256) :
    encode_pixel_intensity (v : Int) = .ok (encGates 0 v 8 ++ measGates 0 0 8) :=
  encode_pixel_intensity_eq ⟨v, hv⟩

theorem bitsVal_testBit' (v : Nat) (hv : v < 256) :
    bitsVal (fun i => v.testBit i) 8 = v :=
  bitsVal_testBit ⟨v, hv⟩

theorem sharing_final_c (g0_val g1_val : Nat) (h0 : g0_val < 256) (h1 : g1_val < 256)
    (rand : Nat → Bool) (k : Nat) :
    (runGates rand (build_sharing_circuit g0_val g1_val) initState).c k =
      if k < 8 then rand (16 + k)
      else if k < 16 then xor (rand (16 + (k - 8))) (g1_val.testBit (k - 8))
      else if k < 24 then
        xor (xor (rand (16 + (k - 16))) (g1_val.testBit (k - 16))) (g0_val.testBit (k - 16))
      else false := by
  have henc0 : (neqr_encode_pixel g0_val).map (shiftGate 0) = encGates 0 g0_val 8 := by
    rw [neqr_encode_pixel_eq' g0_val h0, map_shift_encGates]
  have henc1 : (neqr_encode_pixel g1_val).map (shiftGate 8) = encGates 8 g1_val 8 := by
    rw [neqr_encode_pixel_eq' g1_val h1, map_shift_encGates]
  unfold build_sharing_circuit
  rw [henc0, henc1, runGates_append, runGates_append, runGates_append, runGates_append,
    runGates_append, runGates_append, runGates_append]
  set s1 := runGates rand (encGates 0 g0_val 8) initState with hs1
  set s2 := runGates rand (encGates 8 g1_val 8) s1 with hs2
  set s3 := runGates rand (hGates 16 8) s2 with hs3
  set s4 := runGates rand (cxGates 8 16 24 8) s3 with hs4
  set s5 := runGates rand (cxGates 0 24 32 8) s4 with hs5
  set s6 := runGates rand (measGates 16 0 8) s5 with hs6
  set s7 := runGates rand (measGates 24 8 8) s6 with hs7
  have hq1 : ∀ j, s1.q j = if j < 8 then g0_val.testBit j else false := by
    intro j
    by_cases hj : j < 8
    · rw [if_pos hj, hs1,
        runGates_encGates_q_in rand 0 g0_val 8 initState j (by omega) (by omega) rfl,
        Nat.sub_zero]
    · rw [if_neg hj, hs1, runGates_encGates_q_out rand 0 g0_val 8 initState j (by omega)]
      rfl
  have hq2 : ∀ j, s2.q j =
      if j < 8 then g0_val.testBit j
      else if j < 16 then g1_val.testBit (j - 8)
      else false := by
    intro j
    by_cases hj8 : j < 8
    · rw [if_pos hj8, hs2, runGates_encGates_q_out rand 8 g1_val 8 s1 j (by omega),
        hq1 j, if_pos hj8]
    · by_cases hj16 : j < 16
      · rw [if_neg hj8, if_pos hj16, hs2,
          runGates_encGates_q_in rand 8 g1_val 8 s1 j (by omega) (by omega)
            (by rw [hq1 j, if_neg hj8])]
      · rw [if_neg hj8, if_neg hj16, hs2,
          runGates_encGates_q_out rand 8 g1_val 8 s1 j (by omega), hq1 j, if_neg hj8]
  have hq3 : ∀ j, s3.q j =
      if j < 8 then g0_val.testBit j
      else if j < 16 then g1_val.testBit (j - 8)
      else if j < 24 then rand j
      else false := by
    intro j
    by_cases hj24 : 16 ≤ j ∧ j < 24
    · rw [hs3, runGates_hGates_q_in rand 16 8 s2 j hj24.1 (by omega),
        if_neg (by omega), if_neg (by omega), if_pos (by omega)]
    · rw [hs3, runGates_hGates_q_out rand 16 8 s2 j (by omega), hq2 j]
      by_cases hj8 : j < 8
      · rw [if_pos hj8, if_pos hj8]
      · by_cases hj16 : j < 16
        · rw [if_neg hj8, if_pos hj16, if_neg hj8, if_pos hj16]
        · rw [if_neg hj8, if_neg hj16, if_neg hj8, if_neg hj16, if_neg (by omega)]
  have hq4low : ∀ j, j < 24 → s4.q j = s3.q j := by
    intro j hj
    rw [hs4, runGates_cxGates_q_out rand 8 16 24 8 (by omega) (by omega) s3 j (by omega)]
  have hq4high : ∀ j, 32 ≤ j → s4.q j = s3.q j := by
    intro j hj
    rw [hs4, runGates_cxGates_q_out rand 8 16 24 8 (by omega) (by omega) s3 j (by omega)]
  have hq4b : ∀ j, 24 ≤ j → j < 32 →
      s4.q j = xor (rand (16 + (j - 24))) (xor (g1_val.testBit (j - 24)) false) := by
    intro j hj1 hj2
    rw [hs4, runGates_cxGates_q_in rand 8 16 24 8 (by omega) (by omega) s3 j hj1 hj2]
    rw [hq3 (16 + (j - 24)), if_neg (by omega), if_neg (by omega), if_pos (by omega)]
    rw [hq3 (8 + (j - 24)), if_neg (by omega), if_pos (by omega), Nat.add_sub_cancel_left]
    rw [hq3 j, if_neg (by omega), if_neg (by omega), if_neg (by omega)]
  have hq5low : ∀ j, j < 32 → s5.q j = s4.q j := by
    intro j hj
    rw [hs5, runGates_cxGates_q_out rand 0 24 32 8 (by omega) (by omega) s4 j (by omega)]
  have hq5sn : ∀ j, 32 ≤ j → j < 40 →
      s5.q j = xor (xor (rand (16 + (j - 32))) (xor (g1_val.testBit (j - 32)) false))
        (xor (g0_val.testBit (j - 32)) false) := by
    intro j hj1 hj2
    rw [hs5, runGates_cxGates_q_in rand 0 24 32 8 (by omega) (by omega) s4 j hj1 hj2]
    rw [hq4b (24 + (j - 32)) (by omega) (by omega), Nat.add_sub_cancel_left]
    rw [Nat.zero_add, hq4low (j - 32) (by omega), hq3 (j - 32), if_pos (by omega)]
    rw [hq4high j (by omega), hq3 j, if_neg (by omega), if_neg (by omega),
      if_neg (by omega)]
  have hc5 : s5.c = initState.c := by
    rw [hs5, runGates_cxGates_c, hs4, runGates_cxGates_c, hs3, runGates_hGates_c,
      hs2, runGates_encGates_c, hs1, runGates_encGates_c]
  by_cases hk8 : k < 8
  · rw [if_pos hk8, runGates_measGates_c_out rand 32 16 8 s7 k (by omega),
      hs7, runGates_measGates_c_out rand 24 8 8 s6 k (by omega),
      hs6, runGates_measGates_c_in rand 16 0 8 s5 k (by omega) (by omega),
      Nat.sub_zero, hq5low (16 + k) (by omega), hq4low (16 + k) (by omega),
      hq3 (16 + k), if_neg (by omega), if_neg (by omega), if_pos (by omega)]
  · by_cases hk16 : k < 16
    · rw [if_neg hk8, if_pos hk16, runGates_measGates_c_out rand 32 16 8 s7 k (by omega),
        hs7, runGates_measGates_c_in rand 24 8 8 s6 k (by omega) (by omega),
        hs6, runGates_measGates_q,
        hq5low (24 + (k - 8)) (by omega), hq4b (24 + (k - 8)) (by omega) (by omega),
        Nat.add_sub_cancel_left]
      simp only [Bool.xor_false]
    · by_cases hk24 : k < 24
      · rw [if_neg hk8, if_neg hk16, if_pos hk24,
          runGates_measGates_c_in rand 32 16 8 s7 k (by omega) (by omega),
          hs7, runGates_measGates_q, hs6, runGates_measGates_q,
          hq5sn (32 + (k - 16)) (by omega) (by omega), Nat.add_sub_cancel_left]
        simp only [Bool.xor_false]
      · rw [if_neg hk8, if_neg hk16, if_neg hk24,
          runGates_measGates_c_out rand 32 16 8 s7 k (by omega),
          hs7, runGates_measGates_c_out rand 24 8 8 s6 k (by omega),
          hs6, runGates_measGates_c_out rand 16 0 8 s5 k (by omega), hc5]
        rfl

theorem mem_neqr_encode_pixel (v : Nat) (g : Gate) (hg : g ∈ neqr_encode_pixel v) :
    ∃ i, i < 8 ∧ g = Gate.set i := by
  rw [neqr_encode_pixel, List.mem_filterMap] at hg
  obtain ⟨a, ha, hfa⟩ := hg
  rw [List.mem_range] at ha
  by_cases hb : (pyFormat08b (v : Int)).getD (7 - a) '0' = '1'
  · rw [if_pos hb] at hfa
    exact ⟨a, ha, (Option.some.inj hfa).symm⟩
  · rw [if_neg hb] at hfa
    cases hfa

theorem mem_neqr_shift (off v : Nat) (g : Gate)
    (hg : g ∈ (neqr_encode_pixel v).map (shiftGate off)) :
    ∃ i, i < 8 ∧ g = Gate.set (off + i) := by
  rw [List.mem_map] at hg
  obtain ⟨g', hg', rfl⟩ := hg
  obtain ⟨i, hi, rfl⟩ := mem_neqr_encode_pixel v g' hg'
  exact ⟨i, hi, rfl⟩

theorem mem_hGates (base n : Nat) (g : Gate) (hg : g ∈ hGates base n) :
    ∃ i, i < n ∧ g = Gate.randomize (base + i) := by
  rw [hGates, List.mem_map] at hg
  obtain ⟨i, hi, rfl⟩ := hg
  rw [List.mem_range] at hi
  exact ⟨i, hi, rfl⟩

theorem mem_cxGates (a b d n : Nat) (g : Gate) (hg : g ∈ cxGates a b d n) :
    ∃ i, i < n ∧ (g = Gate.xor (a + i) (d + i) ∨ g = Gate.xor (b + i) (d + i)) := by
  rw [cxGates, List.mem_flatMap] at hg
  obtain ⟨i, hi, hmem⟩ := hg
  rw [List.mem_range] at hi
  rcases List.mem_cons.mp hmem with h | h2
  · exact ⟨i, hi, Or.inl h⟩
  · rw [List.mem_singleton] at h2
    exact ⟨i, hi, Or.inr h2⟩

theorem mem_measGates (qb cb n : Nat) (g : Gate) (hg : g ∈ measGates qb cb n) :
    ∃ i, i < n ∧ g = Gate.measure (qb + i) (cb + i) := by
  rw [measGates, List.mem_map] at hg
  obtain ⟨i, hi, rfl⟩ := hg
  rw [List.mem_range] at hi
  exact ⟨i, hi, rfl⟩

theorem filter_isXorTo_neqr (off v dst : Nat) :
    ((neqr_encode_pixel v).map (shiftGate off)).filter (isXorTo dst) = [] := by
  rw [List.filter_eq_nil_iff]
  intro g hgm
  obtain ⟨j, hj, rfl⟩ := mem_neqr_shift off v g hgm
  simp [isXorTo]

theorem filter_isXorTo_hGates (base n dst : Nat) :
    (hGates base n).filter (isXorTo dst) = [] := by
  rw [List.filter_eq_nil_iff]
  intro g hgm
  obtain ⟨j, hj, rfl⟩ := mem_hGates base n g hgm
  simp [isXorTo]

theorem filter_isXorTo_measGates (qb cb n dst : Nat) :
    (measGates qb cb n).filter (isXorTo dst) = [] := by
  rw [List.filter_eq_nil_iff]
  intro g hgm
  obtain ⟨j, hj, rfl⟩ := mem_measGates qb cb n g hgm
  simp [isXorTo]

/-- C1: for every pair of secrets `g0, g1` in `[0,255]` and for every realized
value of the randomized `S0` register (every Hadamard outcome oracle `rand`),
executing the sharing circuit built by `build_sharing_circuit g0 g1` and
splitting the measured 24-bit outcome yields shares with
`B0 = G1 XOR S0` and `Sn = G0 XOR B0`, so the classical reconstruction
`b0 XOR s0 = g1`, `sn XOR b0 = g0` recovers both secrets exactly. -/
theorem C1_sharing_reconstructs (g0_val g1_val : Nat)
    (h0 : g0_val < 256) (h1 : g1_val < 256) (rand : Nat → Bool) :
    ∃ s0_val b0_val sn_val : Nat,
      execute_and_split
          (countsKey (runGates rand (build_sharing_circuit g0_val g1_val) initState).c 24)
        = .ok (s0_val, b0_val, sn_val)
      ∧ b0_val = g1_val ^^^ s0_val
      ∧ sn_val = g0_val ^^^ b0_val
      ∧ reconstruct b0_val s0_val sn_val = (g0_val, g1_val) := by
  set c := (runGates rand (build_sharing_circuit g0_val g1_val) initState).c with hc
  have hcS : ∀ i, i < 8 → c i = rand (16 + i) := by
    intro i hi
    rw [hc, sharing_final_c g0_val g1_val h0 h1 rand i, if_pos hi]
  have hcB : ∀ i, i < 8 → c (8 + i) = xor (rand (16 + i)) (g1_val.testBit i) := by
    intro i hi
    rw [hc, sharing_final_c g0_val g1_val h0 h1 rand (8 + i), if_neg (by omega),
      if_pos (by omega), Nat.add_sub_cancel_left]
  have hcN : ∀ i, i < 8 → c (16 + i)
      = xor (xor (rand (16 + i)) (g1_val.testBit i)) (g0_val.testBit i) := by
    intro i hi
    rw [hc, sharing_final_c g0_val g1_val h0 h1 rand (16 + i), if_neg (by omega),
      if_neg (by omega), if_pos (by omega), Nat.add_sub_cancel_left]
  have hb0 : bitsVal (fun i => c (8 + i)) 8 = g1_val ^^^ bitsVal c 8 := by
    apply Nat.eq_of_testBit_eq
    intro i
    rw [testBit_bitsVal, Nat.testBit_xor, testBit_bitsVal]
    by_cases hi : i < 8
    · rw [if_pos hi, if_pos hi, hcB i hi, hcS i hi]
      exact Bool.xor_comm _ _
    · rw [if_neg hi, if_neg hi]
      have h256 : (256 : Nat) ≤ 2 ^ i := by
        calc (256 : Nat) = 2 ^ 8 := by norm_num
          _ ≤ 2 ^ i := Nat.pow_le_pow_right (by norm_num) (by omega)
      rw [Nat.testBit_lt_two_pow (lt_of_lt_of_le h1 h256)]
      rfl
  have hsn : bitsVal (fun i => c (16 + i)) 8
      = g0_val ^^^ bitsVal (fun i => c (8 + i)) 8 := by
    apply Nat.eq_of_testBit_eq
    intro i
    rw [testBit_bitsVal, Nat.testBit_xor, testBit_bitsVal]
    by_cases hi : i < 8
    · rw [if_pos hi, if_pos hi, hcN i hi, hcB i hi]
      exact Bool.xor_comm _ _
    · rw [if_neg hi, if_neg hi]
      have h256 : (256 : Nat) ≤ 2 ^ i := by
        calc (256 : Nat) = 2 ^ 8 := by norm_num
          _ ≤ 2 ^ i := Nat.pow_le_pow_right (by norm_num) (by omega)
      rw [Nat.testBit_lt_two_pow (lt_of_lt_of_le h0 h256)]
      rfl
  refine ⟨bitsVal c 8, bitsVal (fun i => c (8 + i)) 8, bitsVal (fun i => c (16 + i)) 8,
    execute_and_split_countsKey c, hb0, hsn, ?_⟩
  show (bitsVal (fun i => c (16 + i)) 8 ^^^ bitsVal (fun i => c (8 + i)) 8,
    bitsVal (fun i => c (8 + i)) 8 ^^^ bitsVal c 8) = (g0_val, g1_val)
  rw [hsn, hb0, Nat.xor_cancel_right, Nat.xor_cancel_right]

/-- Witness for C1 at `g0 = 200`, `g1 = 55` with all randomization
outcomes fixed to 0. -/
theorem C1_sharing_reconstructs_witness :
    (200 : Nat) < 256 ∧ (55 : Nat) < 256 ∧
    ∃ s0_val b0_val sn_val : Nat,
      execute_and_split
          (countsKey (runGates (fun _ => false) (build_sharing_circuit 200 55) initState).c 24)
        = .ok (s0_val, b0_val, sn_val)
      ∧ b0_val = 55 ^^^ s0_val
      ∧ sn_val = 200 ^^^ b0_val
      ∧ reconstruct b0_val s0_val sn_val = (200, 55) :=
  ⟨by decide, by decide,
    C1_sharing_reconstructs 200 55 (by decide) (by decide) (fun _ => false)⟩

/-- C2: for every intensity `v` in `[0,255]`, `encode_pixel_intensity v`
succeeds, and decoding the measured outcome of any execution of the produced
gate list returns `v` — with probability 1, since the result holds for every
randomization oracle (the encode path contains no `randomize` gate). -/
theorem C2_neqr_roundtrip (v : Nat) (hv : v < 256) (rand : Nat → Bool) :
    ∃ gates : List Gate,
      encode_pixel_intensity (v : Int) = .ok gates
      ∧ neqr_decode (countsKey (runGates rand gates initState).c 8) = .ok v := by
  refine ⟨encGates 0 v 8 ++ measGates 0 0 8, encode_pixel_intensity_eq' v hv, ?_⟩
  rw [neqr_decode, pyIntBase2_key _ _ (by omega)]
  have hck : ∀ k, k < 8 →
      (runGates rand (encGates 0 v 8 ++ measGates 0 0 8) initState).c k
        = v.testBit k := by
    intro k hk
    rw [runGates_append, runGates_measGates_c_in rand 0 0 8 _ k (by omega) (by omega),
      Nat.sub_zero, Nat.zero_add,
      runGates_encGates_q_in rand 0 v 8 initState k (by omega) (by omega) rfl,
      Nat.sub_zero]
  rw [bitsVal_congr _ (fun i => v.testBit i) 8 (fun i hi => hck i hi)]
  rw [bitsVal_testBit' v hv]

/-- Witness for C2 at `v = 170` with all randomization outcomes fixed to 0. -/
theorem C2_neqr_roundtrip_witness :
    (170 : Nat) < 256 ∧
    ∃ gates : List Gate,
      encode_pixel_intensity ((170 : Nat) : Int) = .ok gates
      ∧ neqr_decode (countsKey (runGates (fun _ => false) gates initState).c 8)
          = .ok 170 :=
  ⟨by decide, C2_neqr_roundtrip 170 (by decide) (fun _ => false)⟩

set_option maxRecDepth 8000 in
/-- C3 counterexample: the claim says `encode` fails with an `OutOfRangeError`
for `v = -1`, rejected before any gate is constructed.  In fact
`encode_pixel_intensity (-1)` performs no range check and succeeds, returning
a circuit with an X gate on cell 0 (because `format(-1, '08b')` is
`'-0000001'`) followed by the eight measurements. -/
theorem C3_counterexample :
    encode_pixel_intensity (-1) =
      .ok [Gate.set 0, Gate.measure 0 0, Gate.measure 1 1, Gate.measure 2 2,
        Gate.measure 3 3, Gate.measure 4 4, Gate.measure 5 5, Gate.measure 6 6,
        Gate.measure 7 7] := by
  decide

set_option maxRecDepth 8000 in
/-- C3 amended: `encode_pixel_intensity` performs no range validation and no
`OutOfRangeError` exists.  At `v = -1` it succeeds, building a circuit that
encodes intensity 1 (X on cell 0, then the measurements); at `v = 256` the
formatted string has nine digits, so the gate loop attempts an X on qubit
index 8 and the external circuit library rejects the index — an error raised
while the gates are being constructed, not a pre-construction range check. -/
theorem C3_amended :
    (∃ gates : List Gate, encode_pixel_intensity (-1) = .ok gates
      ∧ Gate.set 0 ∈ gates)
    ∧ encode_pixel_intensity 256 = .error .circuitIndexOutOfRange := by
  constructor
  · refine ⟨[Gate.set 0, Gate.measure 0 0, Gate.measure 1 1, Gate.measure 2 2,
      Gate.measure 3 3, Gate.measure 4 4, Gate.measure 5 5, Gate.measure 6 6,
      Gate.measure 7 7], by decide, by decide⟩
  · decide

/-- C4: `build_sharing_circuit` produces its gates in exactly the order
written in the spec: the §4.1 encoding sub-sequences for `g0` (into `G0`) and
`g1` (into `G1`), one `RANDOMIZE` per cell of `S0`, the pairs
`XOR(G1[i], B0[i])`, `XOR(S0[i], B0[i])` for `i = 0..7`, the pairs
`XOR(G0[i], Sn[i])`, `XOR(B0[i], Sn[i])`, and finally a `MEASURE` of every
cell of `S0`, `B0`, `Sn` in that register order into the 24-bit classical
output with bits 0–7 = S0, 8–15 = B0, 16–23 = Sn. -/
theorem C4_gate_order (g0_val g1_val : Nat) :
    build_sharing_circuit g0_val g1_val = specSharingSequence g0_val g1_val := by
  have hm : ∀ off v : Nat, (neqr_encode_pixel v).map (shiftGate off)
      = (List.range 8).filterMap (fun i =>
          if (pyFormat08b (v : Int)).getD (7 - i) '0' = '1'
          then some (Gate.set (off + i)) else none) := by
    intro off v
    rw [neqr_encode_pixel, List.map_filterMap]
    apply List.filterMap_congr
    intro i _
    by_cases hb : (pyFormat08b (v : Int)).getD (7 - i) '0' = '1'
    · rw [if_pos hb, if_pos hb]
      rfl
    · rw [if_neg hb, if_neg hb]
      rfl
  show (neqr_encode_pixel g0_val).map (shiftGate 0)
      ++ (neqr_encode_pixel g1_val).map (shiftGate 8)
      ++ hGates 16 8 ++ cxGates 8 16 24 8 ++ cxGates 0 24 32 8
      ++ measGates 16 0 8 ++ measGates 24 8 8 ++ measGates 32 16 8 = _
  rw [hm 0 g0_val, hm 8 g1_val]
  rfl

set_option maxRecDepth 8000 in
theorem encode_matches_spec : ∀ v : Fin 256,
    encode_pixel_intensity (((v : Nat)) : Int) = .ok (specEncode (v : Nat)) := by
  decide

/-- C5: for every intensity `v` in `[0,255]`, `encode_pixel_intensity v`
produces exactly the gate list written in spec §4.1: an X (`SET`) on register
cell `i` exactly when the natural MSB-first 8-digit binary string of `v` has
a `'1'` at position `7 - i`, no gate for a `'0'` bit, followed by a
measurement of every cell in ascending index order onto a classical output of
equal width. -/
theorem C5_encode_algorithm (v : Nat) (hv : v < 256) :
    encode_pixel_intensity (v : Int) = .ok (specEncode v) :=
  encode_matches_spec ⟨v, hv⟩

/-- Witness for C5 at `v = 170`. -/
theorem C5_encode_algorithm_witness :
    (170 : Nat) < 256
    ∧ encode_pixel_intensity ((170 : Nat) : Int) = .ok (specEncode 170) :=
  ⟨by decide, C5_encode_algorithm 170 (by decide)⟩

/-- C6: the bit-order convention is fixed as reversed everywhere: the encoding
places bit `i` of the value (counted from the least-significant end of the
natural MSB-first binary string) on register cell `i`; the decoder reads the
measured counts key back through the same mapping, returning the value; and
the 24-bit sharing outcome is split so that each 8-bit sub-range is decoded
with the same register-to-natural mapping (cell `i` of each share register is
bit `i` of the decoded share value). -/
theorem C6_bit_order (v : Nat) (hv : v < 256) (c : Nat → Bool) :
    neqr_encode_pixel v = (List.range 8).filterMap
      (fun i => if v.testBit i then some (Gate.set i) else none)
    ∧ neqr_decode (countsKey (fun i => v.testBit i) 8) = .ok v
    ∧ execute_and_split (countsKey c 24)
        = .ok (bitsVal c 8, bitsVal (fun i => c (8 + i)) 8,
            bitsVal (fun i => c (16 + i)) 8) := by
  refine ⟨?_, ?_, execute_and_split_countsKey c⟩
  · rw [neqr_encode_pixel_eq' v hv, encGates]
    apply List.filterMap_congr
    intro i _
    rw [Nat.zero_add]
  · rw [neqr_decode, pyIntBase2_key _ _ (by omega), bitsVal_testBit' v hv]

/-- Witness for C6 at `v = 170` and the all-zero classical state. -/
theorem C6_bit_order_witness :
    (neqr_encode_pixel 170 = (List.range 8).filterMap
      (fun i => if (170 : Nat).testBit i then some (Gate.set i) else none)
    ∧ neqr_decode (countsKey (fun i => (170 : Nat).testBit i) 8) = .ok 170
    ∧ execute_and_split (countsKey (fun _ => false) 24)
        = .ok (bitsVal (fun _ => false) 8, bitsVal (fun _ => false) 8,
            bitsVal (fun _ => false) 8)) :=
  C6_bit_order 170 (by decide) (fun _ => false)

/-- C7 counterexample: the claim says a wrong-length outcome is rejected with
a `MalformedOutcomeError` and never silently truncated.  In fact the
`__main__` split code slices without any length check: on a 23-character
outcome `execute_and_split` silently succeeds with a truncated `s0` share,
and the NEQR decoder accepts a 7-character outcome. -/
theorem C7_counterexample :
    execute_and_split (List.replicate 23 '1') = .ok (127, 255, 255)
    ∧ neqr_decode (List.replicate 7 '1') = .ok 127 := by
  constructor
  · decide
  · decide

/-- C7 amended: no length validation exists and no `MalformedOutcomeError`
exists.  A wrong-length outcome is silently sliced: the split fails only when
a slice is empty — exactly when the outcome has at most 16 characters — and
then only with the external `int('', 2)` parse error; the decoder fails only
on the empty string.  Any outcome longer than 16 characters (including wrong
lengths such as 23) is accepted. -/
theorem C7_amended (s : List Char) :
    (s.length ≤ 16 → execute_and_split s = .error .intParseEmpty)
    ∧ (16 < s.length → ∃ t, execute_and_split s = .ok t)
    ∧ (s ≠ [] → ∃ m, neqr_decode s = .ok m)
    ∧ (s = [] → neqr_decode s = .error .intParseEmpty) := by
  have hok : ∀ t : List Char, t ≠ [] → ∃ m, pyIntBase2 t = .ok m := by
    intro t ht
    exact ⟨_, by rw [pyIntBase2, if_neg ht]⟩
  have herr : ∀ t : List Char, t = [] → pyIntBase2 t = .error .intParseEmpty := by
    intro t ht
    rw [pyIntBase2, if_pos ht]
  have htake : ∀ t : List Char, t ≠ [] → t.take 8 ≠ [] := by
    intro t ht h
    rcases List.take_eq_nil_iff.mp h with h' | h'
    · omega
    · exact ht h'
  refine ⟨?_, ?_, ?_, ?_⟩
  · intro hlen
    by_cases hnil : s = []
    · have h1 := herr (s.take 8) (by rw [hnil]; rfl)
      rw [execute_and_split, h1]
      rfl
    · by_cases h8 : s.length ≤ 8
      · obtain ⟨m1, h1⟩ := hok (s.take 8) (htake s hnil)
        have h2 := herr ((s.drop 8).take 8)
          (by rw [List.drop_eq_nil_iff.mpr h8]; rfl)
        rw [execute_and_split, h1, h2]
        rfl
      · obtain ⟨m1, h1⟩ := hok (s.take 8) (htake s hnil)
        obtain ⟨m2, h2⟩ := hok ((s.drop 8).take 8)
          (htake (s.drop 8) (fun h => by rw [List.drop_eq_nil_iff] at h; omega))
        have h3 := herr ((s.drop 16).take 8)
          (by rw [List.drop_eq_nil_iff.mpr hlen]; rfl)
        rw [execute_and_split, h1, h2, h3]
        rfl
  · intro hlen
    obtain ⟨m1, h1⟩ := hok (s.take 8)
      (htake s (fun h => by rw [h] at hlen; simp at hlen))
    obtain ⟨m2, h2⟩ := hok ((s.drop 8).take 8)
      (htake (s.drop 8) (fun h => by rw [List.drop_eq_nil_iff] at h; omega))
    obtain ⟨m3, h3⟩ := hok ((s.drop 16).take 8)
      (htake (s.drop 16) (fun h => by rw [List.drop_eq_nil_iff] at h; omega))
    refine ⟨(m3, m2, m1), ?_⟩
    rw [execute_and_split, h1, h2, h3]
    rfl
  · intro hnil
    exact hok s hnil
  · intro hnil
    exact herr s hnil

/-- Witness for C7's amended claim on concrete outcomes of lengths 10, 23
and 7. -/
theorem C7_amended_witness :
    execute_and_split (List.replicate 10 '1') = .error .intParseEmpty
    ∧ (∃ t, execute_and_split (List.replicate 23 '0') = .ok t)
    ∧ (∃ m, neqr_decode (List.replicate 7 '0') = .ok m) :=
  ⟨(C7_amended (List.replicate 10 '1')).1 (by decide),
    (C7_amended (List.replicate 23 '0')).2.1 (by decide),
    (C7_amended (List.replicate 7 '0')).2.2.1 (by decide)⟩

/-- C8: every `measure` gate in the sharing circuit reads a qubit of the
share registers `s0`/`b0`/`sn` (global indices 16–39) and writes classical
bit `i - 16`; no measurement ever targets a cell of the secret registers
`g0` (0–7) or `g1` (8–15). -/
theorem C8_secrets_not_measured (g0_val g1_val : Nat) (g : Gate)
    (hg : g ∈ build_sharing_circuit g0_val g1_val) (i k : Nat)
    (hm : g = Gate.measure i k) :
    16 ≤ i ∧ i < 40 ∧ k = i - 16 := by
  subst hm
  simp only [build_sharing_circuit, List.mem_append] at hg
  rcases hg with (((((((h | h) | h) | h) | h) | h) | h) | h)
  · obtain ⟨j, hj, heq⟩ := mem_neqr_shift 0 g0_val _ h
    cases heq
  · obtain ⟨j, hj, heq⟩ := mem_neqr_shift 8 g1_val _ h
    cases heq
  · obtain ⟨j, hj, heq⟩ := mem_hGates 16 8 _ h
    cases heq
  · obtain ⟨j, hj, heq⟩ := mem_cxGates 8 16 24 8 _ h
    rcases heq with heq | heq <;> cases heq
  · obtain ⟨j, hj, heq⟩ := mem_cxGates 0 24 32 8 _ h
    rcases heq with heq | heq <;> cases heq
  · obtain ⟨j, hj, heq⟩ := mem_measGates 16 0 8 _ h
    injection heq with h1 h2
    omega
  · obtain ⟨j, hj, heq⟩ := mem_measGates 24 8 8 _ h
    injection heq with h1 h2
    omega
  · obtain ⟨j, hj, heq⟩ := mem_measGates 32 16 8 _ h
    injection heq with h1 h2
    omega

set_option maxRecDepth 8000 in
/-- Witness for C8 at `g0 = 200`, `g1 = 55` on the measurement of `s0[0]`. -/
theorem C8_secrets_not_measured_witness :
    Gate.measure 16 0 ∈ build_sharing_circuit 200 55
    ∧ (16 ≤ 16 ∧ 16 < 40 ∧ 0 = 16 - 16) :=
  ⟨by decide,
    C8_secrets_not_measured 200 55 (Gate.measure 16 0) (by decide) 16 0 rfl⟩

/-- C9: the XOR discipline of the sharing circuit: no XOR gate has the same
cell as source and destination, every XOR destination lies in `b0`/`sn`
(indices 24–39), each `b0` cell `24+i` is written by exactly the two XORs
from its `g1` and `s0` cells in that order, each `sn` cell `32+i` by exactly
the two XORs from its `g0` and `b0` cells, and all measurements come after
the XOR accumulation (the circuit is an XOR-free-of-measure prefix followed
by the three measurement blocks). -/
theorem C9_xor_discipline (g0_val g1_val : Nat) :
    (∀ s d : Nat, Gate.xor s d ∈ build_sharing_circuit g0_val g1_val →
      s ≠ d ∧ 24 ≤ d ∧ d < 40)
    ∧ (∀ i : Nat, i < 8 →
        (build_sharing_circuit g0_val g1_val).filter (isXorTo (24 + i))
          = [Gate.xor (8 + i) (24 + i), Gate.xor (16 + i) (24 + i)]
        ∧ (build_sharing_circuit g0_val g1_val).filter (isXorTo (32 + i))
          = [Gate.xor (0 + i) (32 + i), Gate.xor (24 + i) (32 + i)])
    ∧ (∃ pre : List Gate,
        build_sharing_circuit g0_val g1_val
          = pre ++ (measGates 16 0 8 ++ measGates 24 8 8 ++ measGates 32 16 8)
        ∧ ∀ g ∈ pre, ∀ q k : Nat, g ≠ Gate.measure q k) := by
  refine ⟨?_, ?_, ?_⟩
  · intro s d hmem
    simp only [build_sharing_circuit, List.mem_append] at hmem
    rcases hmem with (((((((h | h) | h) | h) | h) | h) | h) | h)
    · obtain ⟨j, hj, heq⟩ := mem_neqr_shift 0 g0_val _ h
      cases heq
    · obtain ⟨j, hj, heq⟩ := mem_neqr_shift 8 g1_val _ h
      cases heq
    · obtain ⟨j, hj, heq⟩ := mem_hGates 16 8 _ h
      cases heq
    · obtain ⟨j, hj, heq⟩ := mem_cxGates 8 16 24 8 _ h
      rcases heq with heq | heq <;> (injection heq with h1 h2; omega)
    · obtain ⟨j, hj, heq⟩ := mem_cxGates 0 24 32 8 _ h
      rcases heq with heq | heq <;> (injection heq with h1 h2; omega)
    · obtain ⟨j, hj, heq⟩ := mem_measGates 16 0 8 _ h
      cases heq
    · obtain ⟨j, hj, heq⟩ := mem_measGates 24 8 8 _ h
      cases heq
    · obtain ⟨j, hj, heq⟩ := mem_measGates 32 16 8 _ h
      cases heq
  · intro i hi
    constructor
    · simp only [build_sharing_circuit, List.filter_append, filter_isXorTo_neqr,
        filter_isXorTo_hGates, filter_isXorTo_measGates, List.nil_append,
        List.append_nil]
      interval_cases i <;> decide
    · simp only [build_sharing_circuit, List.filter_append, filter_isXorTo_neqr,
        filter_isXorTo_hGates, filter_isXorTo_measGates, List.nil_append,
        List.append_nil]
      interval_cases i <;> decide
  · refine ⟨(neqr_encode_pixel g0_val).map (shiftGate 0)
      ++ (neqr_encode_pixel g1_val).map (shiftGate 8)
      ++ hGates 16 8 ++ cxGates 8 16 24 8 ++ cxGates 0 24 32 8, ?_, ?_⟩
    · simp only [build_sharing_circuit, List.append_assoc]
    · intro g hgm q k
      simp only [List.mem_append] at hgm
      rcases hgm with ((((h | h) | h) | h) | h)
      · obtain ⟨j, hj, rfl⟩ := mem_neqr_shift 0 g0_val _ h
        simp
      · obtain ⟨j, hj, rfl⟩ := mem_neqr_shift 8 g1_val _ h
        simp
      · obtain ⟨j, hj, rfl⟩ := mem_hGates 16 8 _ h
        simp
      · obtain ⟨j, hj, heq⟩ := mem_cxGates 8 16 24 8 _ h
        rcases heq with rfl | rfl <;> simp
      · obtain ⟨j, hj, heq⟩ := mem_cxGates 0 24 32 8 _ h
        rcases heq with rfl | rfl <;> simp

set_option maxRecDepth 8000 in
/-- Witness for C9 at `g0 = 200`, `g1 = 55`, destination cells 24 and 32. -/
theorem C9_xor_discipline_witness :
    (8 ≠ 24 ∧ 24 ≤ 24 ∧ 24 < 40)
    ∧ ((build_sharing_circuit 200 55).filter (isXorTo (24 + 0))
        = [Gate.xor (8 + 0) (24 + 0), Gate.xor (16 + 0) (24 + 0)]
      ∧ (build_sharing_circuit 200 55).filter (isXorTo (32 + 0))
        = [Gate.xor (0 + 0) (32 + 0), Gate.xor (24 + 0) (32 + 0)]) :=
  ⟨(C9_xor_discipline 200 55).1 8 24 (by decide),
    (C9_xor_discipline 200 55).2.1 0 (by decide)⟩

/-- C10: the circuit shape is fixed and input-independent: for every pair of
inputs the construction declares exactly the five 8-cell quantum registers
`g0 g1 s0 b0 sn` (40 two-level cells in total) and exactly one 24-bit
classical register, and every gate of the built circuit addresses qubit
indices below 40 and classical indices below 24. -/
theorem C10_circuit_shape (g0_val g1_val : Nat) :
    sharingQuantumRegisters
      = [("g0", 8), ("g1", 8), ("s0", 8), ("b0", 8), ("sn", 8)]
    ∧ (sharingQuantumRegisters.map Prod.snd).sum = 40
    ∧ sharingClassicalRegisters = [("measure", 24)]
    ∧ ∀ g ∈ build_sharing_circuit g0_val g1_val, gateWellFormed 40 24 g = true := by
  refine ⟨rfl, by decide, rfl, ?_⟩
  intro g hgm
  simp only [build_sharing_circuit, List.mem_append] at hgm
  rcases hgm with (((((((h | h) | h) | h) | h) | h) | h) | h)
  · obtain ⟨j, hj, rfl⟩ := mem_neqr_shift 0 g0_val _ h
    simp only [gateWellFormed, decide_eq_true_eq]
    omega
  · obtain ⟨j, hj, rfl⟩ := mem_neqr_shift 8 g1_val _ h
    simp only [gateWellFormed, decide_eq_true_eq]
    omega
  · obtain ⟨j, hj, rfl⟩ := mem_hGates 16 8 _ h
    simp only [gateWellFormed, decide_eq_true_eq]
    omega
  · obtain ⟨j, hj, heq⟩ := mem_cxGates 8 16 24 8 _ h
    rcases heq with rfl | rfl <;>
      (simp only [gateWellFormed, Bool.and_eq_true, decide_eq_true_eq]; omega)
  · obtain ⟨j, hj, heq⟩ := mem_cxGates 0 24 32 8 _ h
    rcases heq with rfl | rfl <;>
      (simp only [gateWellFormed, Bool.and_eq_true, decide_eq_true_eq]; omega)
  · obtain ⟨j, hj, rfl⟩ := mem_measGates 16 0 8 _ h
    simp only [gateWellFormed, Bool.and_eq_true, decide_eq_true_eq]
    omega
  · obtain ⟨j, hj, rfl⟩ := mem_measGates 24 8 8 _ h
    simp only [gateWellFormed, Bool.and_eq_true, decide_eq_true_eq]
    omega
  · obtain ⟨j, hj, rfl⟩ := mem_measGates 32 16 8 _ h
    simp only [gateWellFormed, Bool.and_eq_true, decide_eq_true_eq]
    omega

set_option maxRecDepth 8000 in
/-- Witness for C10 at `g0 = 200`, `g1 = 55` on the measurement of `s0[0]`. -/
theorem C10_circuit_shape_witness :
    sharingQuantumRegisters
      = [("g0", 8), ("g1", 8), ("s0", 8), ("b0", 8), ("sn", 8)]
    ∧ gateWellFormed 40 24 (Gate.measure 16 0) = true :=
  ⟨(C10_circuit_shape 200 55).1,
    (C10_circuit_shape 200 55).2.2.2 (Gate.measure 16 0) (by decide)⟩
